import Mathlib

/-!
Verification of the table-extraction pipeline of `pdf_to_excel.py`
(pdf2all repository).

The development shallowly embeds the pure computational core of the
module:

* the table-geometry reconstruction inside `process_single_page_ocr`
  (lines 66-145): grouping OCR text regions into vertical bands,
  greedy column clustering of left-x values, cell assignment and row
  construction;
* the page-worker boundary of `process_single_page_ocr` (lines 29-38,
  147-149), with the external world (OCR engine construction, document
  opening, rasterisation and OCR of a page) modelled as an explicit
  environment and every exception modelled as an `Option` failure;
* `extract_tables_with_ocr` (lines 152-185);
* the page-selector parsing and the structural-vs-OCR fallback policy
  of `convert` (lines 218-272).

Coordinates are modelled as `Int` (the Python code receives numeric
pixel coordinates; `int(top_y) // 25 * 25` is floor division, embedded
with `Int.fdiv`).  Python exceptions are modelled as `Option`/failure
values.  String helpers (`strip`, `split`) are reimplemented on
`List Char` so that all definitions reduce inside the kernel; Python's
`int()` is embedded for decimal numerals with an optional sign (the
exotic underscore/unicode-digit forms are not exercised by the code's
callers and are not modelled).
-/

/-- One OCR detection: a quadrilateral box (four corner points, in the
order produced by the OCR engine) and the recognised text.  Mirrors
the `[box_points, text, score]` items of the RapidOCR result (the
score is ignored by the code). -/
structure OcrItem where
  p0 : Int × Int
  p1 : Int × Int
  p2 : Int × Int
  p3 : Int × Int
  text : String
deriving DecidableEq

/-- Python `str.strip` on a character list: drop whitespace from both
ends. -/
def listStrip (cs : List Char) : List Char :=
  ((cs.dropWhile Char.isWhitespace).reverse.dropWhile Char.isWhitespace).reverse

/-- Python `str.strip` on a `String`. -/
def strStrip (s : String) : String :=
  String.mk (listStrip s.data)

/-- Line 79: `top_y = min(box[0][1], box[1][1])`. -/
def topY (it : OcrItem) : Int := min it.p0.2 it.p1.2

/-- Line 80: `left_x = min(box[0][0], box[3][0])`. -/
def leftX (it : OcrItem) : Int := min it.p0.1 it.p3.1

/-- Line 85: `line_key = int(top_y) // 25 * 25` (floor division). -/
def bandKey (y : Int) : Int := (Int.fdiv y 25) * 25

/-- The per-word record appended to a line (line 88-91):
`{'text': text.strip(), 'left': left_x}`. -/
structure Word where
  text : String
  left : Int
deriving DecidableEq

/-- Lines 67-91: turn the OCR items into `(line_key, word)` pairs,
skipping items whose text is empty after stripping. -/
def toWords (items : List OcrItem) : List (Int × Word) :=
  items.filterMap fun it =>
    if strStrip it.text = "" then none
    else some (bandKey (topY it), ⟨strStrip it.text, leftX it⟩)

/-- Ascending sort of integers (Python `sorted`). -/
def sortInt (xs : List Int) : List Int :=
  List.insertionSort (· ≤ ·) xs

/-- Line 97: the distinct line keys in ascending order
(`sorted(lines.items())`). -/
def lineKeys (ps : List (Int × Word)) : List Int :=
  sortInt (ps.map Prod.fst).dedup

/-- Line 97: the lines sorted by band key; within a line, words keep
their insertion (input) order, as in the Python dict of lists. -/
def sortedLines (ps : List (Int × Word)) : List (List Word) :=
  (lineKeys ps).map fun k => (ps.filter fun p => p.1 = k).map Prod.snd

/-- Lines 100-103: all observed left-x values, walked line by line. -/
def allLefts (lines : List (List Word)) : List Int :=
  lines.flatten.map Word.left

/-- Line 109: `sorted(set(all_lefts))`. -/
def sortedDedup (xs : List Int) : List Int :=
  sortInt xs.dedup

/-- Lines 111-113: the scan over the remaining sorted left values.
`b` is the last opened boundary: a value opens a new column only when
it is more than 80 past `b`. -/
def colScan (b : Int) : List Int → List Int
  | [] => []
  | x :: xs => if x - b > 80 then x :: colScan x xs else colScan b xs

/-- Lines 108-113: the column boundary positions computed from the
raw list of observed left-x values. -/
def colPositions (lefts : List Int) : List Int :=
  match sortedDedup lefts with
  | [] => []
  | x :: xs => x :: colScan x xs

/-- Lines 123-126: the column index a word with left value `left` is
assigned to: starting at 0, every enumerated boundary with
`left >= col_pos - 40` overwrites the index. -/
def assignColAux (left : Int) : List Int → Nat → Nat → Nat
  | [], _, acc => acc
  | c :: cs, i, acc => assignColAux left cs (i + 1) (if left ≥ c - 40 then i else acc)

/-- The final column index for a word (lines 122-126). -/
def assignCol (cols : List Int) (left : Int) : Nat :=
  assignColAux left cols 0 0

/-- Lines 128-131: how a word's text enters a cell (Python string
truthiness: append with a space separator when the cell is already
non-empty). -/
def cellAppend (cur t : String) : String :=
  if cur = "" then t else cur ++ " " ++ t

/-- Ordering of words by their left-x value. -/
def wordLE (a b : Word) : Prop := a.left ≤ b.left

instance : DecidableRel wordLE :=
  fun a b => inferInstanceAs (Decidable (a.left ≤ b.left))

instance : IsTotal Word wordLE :=
  ⟨fun a b => le_total a.left b.left⟩

instance : IsTrans Word wordLE :=
  ⟨fun _ _ _ h1 h2 => le_trans h1 h2⟩

/-- Stable ascending sort of a line's words by left-x
(line 119: `sorted(words, key=lambda w: w['left'])`). -/
def sortWords (ws : List Word) : List Word :=
  List.insertionSort wordLE ws

/-- Lines 120-131 starting from a given row accumulator. -/
def buildRowFrom (cols : List Int) (row0 : List String) (ws : List Word) : List String :=
  ws.foldl (fun row w =>
    let idx := assignCol cols w.left
    if idx < row.length then row.set idx (cellAppend (row.getD idx "") w.text) else row) row0

/-- Lines 120-131: the row built for one (already sorted) line. -/
def buildRow (cols : List Int) (ws : List Word) : List String :=
  buildRowFrom cols (List.replicate cols.length "") ws

/-- One iteration of the row loop (lines 117-133): the line's row is
kept exactly when some cell has non-whitespace content. -/
def tdStep (cols : List Int) (acc : List (List String)) (ws : List Word) : List (List String) :=
  let row := buildRow cols (sortWords ws)
  if row.any (fun c => strStrip c ≠ "") then acc ++ [row] else acc

/-- Lines 116-133: the surviving table rows, one per line that keeps
at least one cell with non-whitespace content. -/
def tableData (cols : List Int) (lines : List (List Word)) : List (List String) :=
  lines.foldl (tdStep cols) []

/-- Lines 66-145: the geometry reconstruction.  Returns the full grid
(header row included) when more than one row survives, `none`
otherwise. -/
def reconstruct (items : List OcrItem) : Option (List (List String)) :=
  let ps := toWords items
  let lines := sortedLines ps
  if lines.isEmpty then none
  else
    let lefts := allLefts lines
    if lefts.isEmpty then none
    else
      let td := tableData (colPositions lefts) lines
      if 1 < td.length then some td else none

/-- The environment a page worker runs against.  `initOk` models
whether `RapidOCR()` construction and `fitz.open(pdf_path)` succeed
(lines 33-35); `numPages` is `len(doc)`; `ocrOf p` is the list of OCR
items obtained for page `p` after rasterising at 2x zoom and running
the OCR engine (lines 40-61), with `none` standing for an exception
raised along the way.  An empty list models an empty OCR result. -/
structure PdfEnv where
  initOk : Bool
  numPages : Nat
  ocrOf : Nat → Option (List OcrItem)

/-- One extracted table as assembled by the module: the 1-based page
number, the full grid (the code stores row 0 as the header of the
`DataFrame` built from the remaining rows) and the source tag. -/
structure PageTable where
  page : Nat
  grid : List (List String)
  source : String
deriving DecidableEq

/-- Lines 24-149: `process_single_page_ocr`.  The outer
`try/except` converts every exception into `None`; here every
fallible step is an explicit `Option` branch.  An out-of-range page
index returns `none` (lines 36-38); a failed or empty OCR pass
returns `none` (lines 54-64); a reconstruction with fewer than two
rows returns `none` (lines 135-145). -/
def process_single_page_ocr (pdf : PdfEnv) (page_num : Int) : Option PageTable :=
  if pdf.initOk = false then none
  else if page_num < 0 ∨ (pdf.numPages : Int) ≤ page_num then none
  else
    match pdf.ocrOf page_num.toNat with
    | none => none
    | some items =>
      match reconstruct items with
      | none => none
      | some td => some ⟨page_num.toNat + 1, td, "ocr"⟩

/-- Lines 152-185: `extract_tables_with_ocr`.  When OCR is
unavailable it returns `[]` immediately; otherwise `executor.map`
yields the per-page results in input order and the `None` entries are
filtered out. -/
def extract_tables_with_ocr (pdf : PdfEnv) (ocr_avail : Bool) (pages : List Int) : List PageTable :=
  if ocr_avail = false then []
  else ((pages.map fun p => process_single_page_ocr pdf p).filterMap id)

/-- Lines 239-255: the structural (pdfplumber) extraction pass.
`extractor p` is the collaborator call `pdf.pages[p].extract_tables()`;
out-of-range page indices are skipped and empty tables dropped, each
kept table tagged `"pdfplumber"`.  `structStep` is one iteration of
the page loop, `structuralTables` the whole pass. -/
def structStep (npages : Nat) (extractor : Nat → List (List (List String)))
    (acc : List PageTable) (p : Int) : List PageTable :=
  if p < 0 ∨ (npages : Int) ≤ p then acc
  else acc ++ ((extractor p.toNat).filterMap fun t =>
    if t.isEmpty then none else some ⟨p.toNat + 1, t, "pdfplumber"⟩)

/-- The structural pass over all requested pages (lines 239-255). -/
def structuralTables (npages : Nat) (extractor : Nat → List (List (List String)))
    (pages : List Int) : List PageTable :=
  pages.foldl (structStep npages extractor) []

/-- Lines 218-272: the table-collection phase of `convert` — the
structural pass runs first, and only when it produced nothing, OCR
was requested and the OCR capability is present is
`extract_tables_with_ocr` invoked over the same page set (replacing,
never merging with, the structural result). -/
def convertTables (npages : Nat) (extractor : Nat → List (List (List String)))
    (pdf : PdfEnv) (ocr_avail : Bool) (pages : List Int) (use_ocr : Bool) : List PageTable :=
  let structural := structuralTables npages extractor pages
  if structural.isEmpty && use_ocr && ocr_avail then extract_tables_with_ocr pdf ocr_avail pages
  else structural

/-- Python `s.split(sep)` for a one-character separator, on character
lists: always at least one (possibly empty) group. -/
def splitOnChar (sep : Char) (cs : List Char) : List (List Char) :=
  cs.foldr (fun c acc =>
    if c = sep then [] :: acc
    else
      match acc with
      | [] => [[c]]
      | g :: gs => (c :: g) :: gs) [[]]

/-- Decimal digits to a natural number. -/
def digitsToNat (cs : List Char) : Nat :=
  cs.foldl (fun n c => n * 10 + (c.toNat - 48)) 0

/-- Python `int(s)` for decimal numerals: surrounding whitespace is
stripped, an optional single sign is allowed, and at least one digit
is required; `none` models the `ValueError`. -/
def pyInt (cs : List Char) : Option Int :=
  match listStrip cs with
  | [] => none
  | '+' :: rest =>
    if rest ≠ [] ∧ rest.all Char.isDigit then some (digitsToNat rest : Int) else none
  | '-' :: rest =>
    if rest ≠ [] ∧ rest.all Char.isDigit then some (-(digitsToNat rest : Int)) else none
  | c :: rest =>
    if (c :: rest).all Char.isDigit then some (digitsToNat (c :: rest) : Int) else none

/-- Python `range(lo, hi)` over integers, as a list. -/
def intRange (lo hi : Int) : List Int :=
  (List.range (hi - lo).toNat).map fun i => lo + (i : Int)

/-- Lines 228-237: one iteration of the page-selector loop.  A token
containing `-` takes the range branch: it must split into exactly two
parts (otherwise the tuple unpacking raises) and both must parse as
integers (otherwise `int` raises); `none` models the uncaught
exception.  A token without `-` is parsed as a single 1-based page,
and only there a `ValueError` is caught and the token ignored. -/
def parseToken (part0 : List Char) : Option (List Int) :=
  let part := listStrip part0
  if part.contains '-' then
    match splitOnChar '-' part with
    | [s, e] =>
      match pyInt s, pyInt e with
      | some a, some b => some (intRange (a - 1) b)
      | _, _ => none
    | _ => none
  else
    match pyInt part with
    | some n => some [n - 1]
    | none => some []

/-- Sequencing of the loop over tokens: the first uncaught exception
aborts the whole parse. -/
def parseAll : List (List Char) → Option (List (List Int))
  | [] => some []
  | t :: ts =>
    match parseToken t, parseAll ts with
    | some l, some ls => some (l :: ls)
    | _, _ => none

/-- Lines 226-237: the full page-selector parsing of `convert` for a
selector other than `"all"`: the comma-separated tokens are processed
in order and their page contributions concatenated; `none` models an
exception escaping the loop (which `convert`'s outermost handler turns
into a failure result). -/
def parsePages (pages : String) : Option (List Int) :=
  (parseAll (splitOnChar ',' pages.data)).map List.flatten

/-- The rows surviving cell assignment for a given region list:
the `table_data` value of lines 116-133 as a function of the input
items. -/
def survivingRows (items : List OcrItem) : List (List String) :=
  tableData (colPositions (allLefts (sortedLines (toWords items)))) (sortedLines (toWords items))

/-- Concatenation of cell fragments separated by exactly one space. -/
def joinCells : List String → String
  | [] => ""
  | [t] => t
  | t :: ts => t ++ " " ++ joinCells ts

/-- A degenerate OCR detection whose box is collapsed onto the single
point `(x, y)` — the form the spec's synthetic scenarios use. -/
def mkItem (t : String) (x y : Int) : OcrItem :=
  ⟨(x, y), (x, y), (x, y), (x, y), t⟩

/-- The region list of the spec's end-to-end scenario. -/
def demoItems : List OcrItem :=
  [mkItem "Name" 0 0, mkItem "Age" 100 0, mkItem "Alice" 0 30, mkItem "30" 100 30]

/-- A concrete two-page environment whose OCR pass always yields the
demo regions: used to instantiate the universally quantified
theorems. -/
def demoPdf : PdfEnv :=
  ⟨true, 2, fun _ => some demoItems⟩

/-- A concrete structural extractor returning one two-row table on
every page. -/
def demoExtractor : Nat → List (List (List String)) :=
  fun _ => [[["h1", "h2"], ["a", "b"]]]

/-- The table the worker produces for any page of `demoPdf`. -/
def demoTable : PageTable :=
  ⟨1, [["Name", "Age"], ["Alice", "30"]], "ocr"⟩

lemma sortedDedup_mem {x : Int} {xs : List Int} : x ∈ sortedDedup xs ↔ x ∈ xs := by
  unfold sortedDedup sortInt
  rw [(List.perm_insertionSort _ _).mem_iff, List.mem_dedup]

lemma sortedDedup_sorted (xs : List Int) : List.Sorted (· ≤ ·) (sortedDedup xs) :=
  List.sorted_insertionSort _ _

lemma sortedDedup_nodup (xs : List Int) : (sortedDedup xs).Nodup :=
  ((List.perm_insertionSort _ _).nodup_iff).mpr (List.nodup_dedup xs)

lemma sortedDedup_lt (xs : List Int) : (sortedDedup xs).Pairwise (· < ·) :=
  ((sortedDedup_sorted xs).and (sortedDedup_nodup xs)).imp
    (fun h => lt_of_le_of_ne h.1 h.2)

lemma colScan_gt (xs : List Int) : ∀ (b : Int), ∀ x ∈ colScan b xs, b + 80 < x := by
  induction xs with
  | nil => intro b x hx; simp [colScan] at hx
  | cons a as ih =>
    intro b x hx
    by_cases h : a - b > 80
    · rw [colScan, if_pos h] at hx
      rcases List.mem_cons.mp hx with rfl | hx
      · omega
      · have := ih a x hx; omega
    · rw [colScan, if_neg h] at hx
      exact ih b x hx

lemma colScan_pairwise (xs : List Int) : ∀ b, (colScan b xs).Pairwise (· < ·) := by
  induction xs with
  | nil => intro b; simp [colScan]
  | cons a as ih =>
    intro b
    by_cases h : a - b > 80
    · rw [colScan, if_pos h]
      exact List.pairwise_cons.mpr
        ⟨fun y hy => by have := colScan_gt as a y hy; omega, ih a⟩
    · rw [colScan, if_neg h]
      exact ih b

lemma colPositions_pairwise (lefts : List Int) : (colPositions lefts).Pairwise (· < ·) := by
  unfold colPositions
  cases h : sortedDedup lefts with
  | nil => simp
  | cons b rest =>
    exact List.pairwise_cons.mpr
      ⟨fun y hy => by have := colScan_gt rest b y hy; omega, colScan_pairwise rest b⟩

lemma colPositions_min (lefts : List Int) (h : lefts ≠ []) :
    ∃ m, (colPositions lefts).head? = some m ∧ m ∈ lefts ∧ ∀ x ∈ lefts, m ≤ x := by
  cases hsd : sortedDedup lefts with
  | nil =>
    exfalso
    obtain ⟨y, hy⟩ := List.exists_mem_of_ne_nil lefts h
    have hy' : y ∈ sortedDedup lefts := sortedDedup_mem.mpr hy
    rw [hsd] at hy'
    simp at hy'
  | cons m rest =>
    refine ⟨m, ?_, ?_, ?_⟩
    · unfold colPositions; rw [hsd]; rfl
    · exact sortedDedup_mem.mp (hsd ▸ List.mem_cons_self m rest)
    · intro x hx
      have hx' : x ∈ sortedDedup lefts := sortedDedup_mem.mpr hx
      rw [hsd] at hx'
      rcases List.mem_cons.mp hx' with rfl | hx'
      · exact le_refl x
      · have hs := sortedDedup_sorted lefts
        rw [hsd] at hs
        exact (List.pairwise_cons.mp hs).1 x hx'

/-- C6: for every non-empty list of observed left-x values, the
column-boundary sequence computed by the greedy left-to-right merge
pass is strictly increasing and its first element is the minimum
observed left-x. -/
theorem C6_column_boundaries (lefts : List Int) (h : lefts ≠ []) :
    (colPositions lefts).Pairwise (· < ·) ∧
    ∃ m, (colPositions lefts).head? = some m ∧ m ∈ lefts ∧ ∀ x ∈ lefts, m ≤ x :=
  ⟨colPositions_pairwise lefts, colPositions_min lefts h⟩

theorem C6_column_boundaries_witness :
    (colPositions [5, 200, 7]).Pairwise (· < ·) ∧
    ∃ m, (colPositions [5, 200, 7]).head? = some m ∧ m ∈ [(5 : Int), 200, 7] ∧
      ∀ x ∈ [(5 : Int), 200, 7], m ≤ x :=
  C6_column_boundaries [5, 200, 7] (by decide)

/-- C1 as stated is false at a concrete input: the two regions sit at
left-x 0 and 80, so the two singleton groups `{0}` and `{80}` are
separated by exactly 80 pixels — at least 80, as the claim requires —
yet the code merges them (line 112 requires a gap strictly greater
than 80), producing a single column boundary instead of two. -/
theorem C1_counterexample :
    allLefts (sortedLines (toWords [mkItem "A" 0 0, mkItem "B" 80 0])) = [0, 80] ∧
    colPositions (allLefts (sortedLines (toWords [mkItem "A" 0 0, mkItem "B" 80 0]))) = [0] ∧
    (colPositions (allLefts (sortedLines (toWords [mkItem "A" 0 0, mkItem "B" 80 0])))).length ≠ 2 := by
  decide

lemma colScan_all_close (xs : List Int) : ∀ b, (∀ x ∈ xs, x - b ≤ 80) → colScan b xs = [] := by
  induction xs with
  | nil => intro b _; rfl
  | cons a as ih =>
    intro b h
    have ha := h a (List.mem_cons_self a as)
    rw [colScan, if_neg (by omega)]
    exact ih b fun x hx => h x (List.mem_cons_of_mem a hx)

lemma colScan_two_groups (g1 g2 : List Int)
    (hd1 : ∀ x ∈ g1, ∀ y ∈ g1, x - y < 80)
    (hd2 : ∀ x ∈ g2, ∀ y ∈ g2, x - y < 80)
    (hsep : ∀ x ∈ g1, ∀ y ∈ g2, x + 80 < y) :
    ∀ (xs : List Int) (b : Int), b ∈ g1 → xs.Pairwise (· < ·) →
      (∀ x ∈ xs, x ∈ g1 ∨ x ∈ g2) → (∃ y ∈ xs, y ∈ g2) →
      (colScan b xs).length = 1 := by
  intro xs
  induction xs with
  | nil =>
    intro b _ _ _ hex
    simp at hex
  | cons a as ih =>
    intro b hb hpw hmem hex
    have hpw' := List.pairwise_cons.mp hpw
    rcases hmem a (List.mem_cons_self a as) with ha | ha
    · have hab : a - b < 80 := hd1 a ha b hb
      rw [colScan, if_neg (by omega)]
      apply ih b hb hpw'.2 (fun x hx => hmem x (List.mem_cons_of_mem a hx))
      rcases hex with ⟨y, hy, hyg⟩
      rcases List.mem_cons.mp hy with rfl | hy'
      · exfalso; have := hsep y ha y hyg; omega
      · exact ⟨y, hy', hyg⟩
    · have hba := hsep b hb a ha
      rw [colScan, if_pos (by omega)]
      have hclose : colScan a as = [] := by
        apply colScan_all_close
        intro x hx
        rcases hmem x (List.mem_cons_of_mem a hx) with hx1 | hx2
        · exfalso
          have hxa := hsep x hx1 a ha
          have := hpw'.1 x hx
          omega
        · have := hd2 x hx2 a ha; omega
      rw [hclose]
      rfl

/-- C1 (amended): when the observed left-x values form two non-empty
groups, each of diameter below 80 pixels, separated by strictly more
than 80 pixels, the computed column-boundary set has exactly 2
entries. -/
theorem C1_two_columns (lefts g1 g2 : List Int)
    (h1 : g1 ≠ []) (h2 : g2 ≠ [])
    (hd1 : ∀ x ∈ g1, ∀ y ∈ g1, x - y < 80)
    (hd2 : ∀ x ∈ g2, ∀ y ∈ g2, x - y < 80)
    (hsep : ∀ x ∈ g1, ∀ y ∈ g2, x + 80 < y)
    (hcov : ∀ v ∈ lefts, v ∈ g1 ∨ v ∈ g2)
    (hg1 : ∀ v ∈ g1, v ∈ lefts) (hg2 : ∀ v ∈ g2, v ∈ lefts) :
    (colPositions lefts).length = 2 := by
  have hdisj : ∀ a, a ∈ g1 → a ∈ g2 → False := by
    intro a ha1 ha2
    have := hsep a ha1 a ha2
    omega
  cases hsd : sortedDedup lefts with
  | nil =>
    exfalso
    obtain ⟨x0, hx0⟩ := List.exists_mem_of_ne_nil g1 h1
    have hx0' : x0 ∈ sortedDedup lefts := sortedDedup_mem.mpr (hg1 x0 hx0)
    rw [hsd] at hx0'
    simp at hx0'
  | cons b rest =>
    have hbmem : b ∈ lefts := sortedDedup_mem.mp (hsd ▸ List.mem_cons_self b rest)
    have hrest_mem : ∀ x ∈ rest, x ∈ lefts := fun x hx =>
      sortedDedup_mem.mp (hsd ▸ List.mem_cons_of_mem b hx)
    have hble : ∀ x ∈ rest, b ≤ x := by
      have hs := sortedDedup_sorted lefts
      rw [hsd] at hs
      exact fun x hx => (List.pairwise_cons.mp hs).1 x hx
    have hb1 : b ∈ g1 := by
      rcases hcov b hbmem with h | h
      · exact h
      · exfalso
        obtain ⟨x0, hx0⟩ := List.exists_mem_of_ne_nil g1 h1
        have hx0' : x0 ∈ sortedDedup lefts := sortedDedup_mem.mpr (hg1 x0 hx0)
        rw [hsd] at hx0'
        rcases List.mem_cons.mp hx0' with rfl | hx0'
        · exact hdisj x0 hx0 h
        · have hs1 := hsep x0 hx0 b h
          have hs2 := hble x0 hx0'
          omega
    have hpw : rest.Pairwise (· < ·) := by
      have := sortedDedup_lt lefts
      rw [hsd] at this
      exact (List.pairwise_cons.mp this).2
    have hex : ∃ y ∈ rest, y ∈ g2 := by
      obtain ⟨y0, hy0⟩ := List.exists_mem_of_ne_nil g2 h2
      have hy0' : y0 ∈ sortedDedup lefts := sortedDedup_mem.mpr (hg2 y0 hy0)
      rw [hsd] at hy0'
      rcases List.mem_cons.mp hy0' with rfl | hy0'
      · exact (hdisj y0 hb1 hy0).elim
      · exact ⟨y0, hy0', hy0⟩
    have hcov' : ∀ x ∈ rest, x ∈ g1 ∨ x ∈ g2 := fun x hx => hcov x (hrest_mem x hx)
    have hscan := colScan_two_groups g1 g2 hd1 hd2 hsep rest b hb1 hpw hcov' hex
    unfold colPositions
    rw [hsd]
    show (b :: colScan b rest).length = 2
    rw [List.length_cons, hscan]

theorem C1_two_columns_witness : (colPositions [10, 100, 0]).length = 2 :=
  C1_two_columns [10, 100, 0] [0, 10] [100] (by decide) (by decide) (by decide)
    (by decide) (by decide) (by decide) (by decide) (by decide)

/-- C3: the spec's end-to-end scenario — regions `Name`,`Age` at
y = 0 and `Alice`,`30` at y = 30, left-x 0 and 100 — reconstructs to
the grid with header row `["Name", "Age"]` and data row
`["Alice", "30"]`. -/
theorem C3_demo_grid :
    reconstruct demoItems = some [["Name", "Age"], ["Alice", "30"]] := by
  decide

lemma tableData_length_le (cols : List Int) (lines : List (List Word)) :
    (tableData cols lines).length ≤ lines.length := by
  suffices h : ∀ (ls : List (List Word)) (acc : List (List String)),
      (ls.foldl (tdStep cols) acc).length ≤ acc.length + ls.length by
    simpa [tableData] using h lines []
  intro ls
  induction ls with
  | nil => intro acc; simp
  | cons w ws ih =>
    intro acc
    have hstep : (tdStep cols acc w).length ≤ acc.length + 1 := by
      simp only [tdStep]
      split
      · simp
      · simp
    have := ih (tdStep cols acc w)
    simp only [List.foldl_cons, List.length_cons]
    omega

lemma reconstruct_none_of_short (items : List OcrItem)
    (h : (survivingRows items).length < 2) : reconstruct items = none := by
  have h' : ¬ 1 < (survivingRows items).length := by omega
  unfold survivingRows at h'
  simp only [reconstruct]
  split_ifs with h1 h2 <;> rfl

lemma nodup_all_eq_length_le (l : List Int) (k : Int) (hn : l.Nodup)
    (h : ∀ x ∈ l, x = k) : l.length ≤ 1 := by
  cases l with
  | nil => simp
  | cons a t =>
    cases t with
    | nil => simp
    | cons b u =>
      exfalso
      have ha := h a (List.mem_cons_self a _)
      have hb := h b (List.mem_cons_of_mem a (List.mem_cons_self b u))
      have hne : a ≠ b := (List.pairwise_cons.mp hn).1 b (List.mem_cons_self b u)
      exact hne (ha.trans hb.symm)

lemma toWords_band (items : List OcrItem) (k : Int)
    (h : ∀ it ∈ items, bandKey (topY it) = k) :
    ∀ p ∈ toWords items, p.1 = k := by
  intro p hp
  rcases List.mem_filterMap.mp hp with ⟨it, hit, heq⟩
  by_cases ht : strStrip it.text = ""
  · rw [if_pos ht] at heq
    exact absurd heq (by simp)
  · rw [if_neg ht] at heq
    have := Option.some.inj heq
    rw [← this]
    exact h it hit

lemma sortedLines_length_le_one (items : List OcrItem) (k : Int)
    (h : ∀ it ∈ items, bandKey (topY it) = k) :
    (sortedLines (toWords items)).length ≤ 1 := by
  have hw := toWords_band items k h
  unfold sortedLines
  rw [List.length_map]
  unfold lineKeys sortInt
  rw [(List.perm_insertionSort _ _).length_eq]
  apply nodup_all_eq_length_le _ k (List.nodup_dedup _)
  intro x hx
  rcases List.mem_map.mp (List.mem_dedup.mp hx) with ⟨p, hp, hpx⟩
  rw [← hpx]
  exact hw p hp

/-- C5: the reconstruction returns no table whenever fewer than two
rows survive cell assignment; in particular an empty region list, or a
region list whose band keys all coincide (one line of text), yields no
table. -/
theorem C5_no_table (items : List OcrItem) (k : Int)
    (h : (survivingRows items).length < 2 ∨ items = [] ∨ ∀ it ∈ items, bandKey (topY it) = k) :
    reconstruct items = none := by
  rcases h with h | h | h
  · exact reconstruct_none_of_short items h
  · subst h; rfl
  · apply reconstruct_none_of_short
    unfold survivingRows
    have h1 := tableData_length_le
      (colPositions (allLefts (sortedLines (toWords items)))) (sortedLines (toWords items))
    have h2 := sortedLines_length_le_one items k h
    omega

theorem C5_no_table_witness :
    reconstruct [mkItem "A" 0 0, mkItem "B" 100 3] = none :=
  C5_no_table [mkItem "A" 0 0, mkItem "B" 100 3] 0 (Or.inr (Or.inr (by decide)))

lemma assignColAux_le (left : Int) :
    ∀ (cs : List Int) (i acc : Nat), acc ≤ i → acc ≤ assignColAux left cs i acc := by
  intro cs
  induction cs with
  | nil => intro i acc _; exact le_refl acc
  | cons c cs ih =>
    intro i acc h
    rw [assignColAux]
    by_cases hc : left ≥ c - 40
    · rw [if_pos hc]
      exact le_trans h (ih (i + 1) i (by omega))
    · rw [if_neg hc]
      exact ih (i + 1) acc (by omega)

lemma assignColAux_cases (left : Int) :
    ∀ (cs : List Int) (i acc : Nat),
      assignColAux left cs i acc = acc ∨
      ∃ k, k < cs.length ∧ assignColAux left cs i acc = i + k ∧ cs.getD k 0 - 40 ≤ left := by
  intro cs
  induction cs with
  | nil => intro i acc; exact Or.inl rfl
  | cons c cs ih =>
    intro i acc
    rw [assignColAux]
    by_cases hc : left ≥ c - 40
    · rw [if_pos hc]
      rcases ih (i + 1) i with h | ⟨k, hk, he, hp⟩
      · refine Or.inr ⟨0, by simp, ?_, ?_⟩
        · rw [h]; omega
        · simp only [List.getD_cons_zero]; omega
      · refine Or.inr ⟨k + 1, by simp; omega, ?_, ?_⟩
        · rw [he]; omega
        · simpa using hp
    · rw [if_neg hc]
      rcases ih (i + 1) acc with h | ⟨k, hk, he, hp⟩
      · exact Or.inl h
      · refine Or.inr ⟨k + 1, by simp; omega, ?_, ?_⟩
        · rw [he]; omega
        · simpa using hp

lemma assignColAux_ge (left : Int) :
    ∀ (cs : List Int) (i acc j : Nat), acc ≤ i → j < cs.length → cs.getD j 0 - 40 ≤ left →
      i + j ≤ assignColAux left cs i acc := by
  intro cs
  induction cs with
  | nil => intro i acc j _ hj _; simp at hj
  | cons c cs ih =>
    intro i acc j hacc hj hp
    rw [assignColAux]
    cases j with
    | zero =>
      have hc : left ≥ c - 40 := by
        simp only [List.getD_cons_zero] at hp
        omega
      rw [if_pos hc]
      have := assignColAux_le left cs (i + 1) i (by omega)
      omega
    | succ k =>
      have h1 : (if left ≥ c - 40 then i else acc) ≤ i + 1 := by split <;> omega
      have := ih (i + 1) _ k h1 (by simpa using hj) (by simpa using hp)
      omega

lemma assignCol_lt (cs : List Int) (left : Int) (h : cs ≠ []) :
    assignCol cs left < cs.length := by
  unfold assignCol
  rcases assignColAux_cases left cs 0 0 with he | ⟨k, hk, he, _⟩
  · rw [he]; exact List.length_pos.mpr h
  · rw [he]; omega

lemma assignCol_ge (cs : List Int) (left : Int) (j : Nat)
    (hj : j < cs.length) (hp : cs.getD j 0 - 40 ≤ left) :
    j ≤ assignCol cs left := by
  have := assignColAux_ge left cs 0 0 j (le_refl 0) hj hp
  unfold assignCol
  omega

lemma assignCol_sat (cs : List Int) (left : Int)
    (h : ∃ j, j < cs.length ∧ cs.getD j 0 - 40 ≤ left) :
    cs.getD (assignCol cs left) 0 - 40 ≤ left := by
  rcases assignColAux_cases left cs 0 0 with he | ⟨k, hk, he, hp⟩
  · obtain ⟨j, hj, hjp⟩ := h
    have hge := assignCol_ge cs left j hj hjp
    unfold assignCol at hge ⊢
    rw [he] at hge ⊢
    have : j = 0 := by omega
    rw [← this]
    exact hjp
  · unfold assignCol
    rw [he]
    simpa using hp

lemma getD_set_self (l : List String) (i : Nat) (x : String) (h : i < l.length) :
    (l.set i x).getD i "" = x := by
  rw [List.getD_eq_getElem?_getD, List.getElem?_set_self h]
  rfl

lemma getD_set_ne (l : List String) (i j : Nat) (x : String) (h : i ≠ j) :
    (l.set i x).getD j "" = l.getD j "" := by
  rw [List.getD_eq_getElem?_getD, List.getElem?_set_ne h, ← List.getD_eq_getElem?_getD]

lemma getD_replicate_empty (n j : Nat) : (List.replicate n ("" : String)).getD j "" = "" := by
  rw [List.getD_eq_getElem?_getD]
  cases h : (List.replicate n ("" : String))[j]? with
  | none => rfl
  | some v =>
    have hv : v ∈ List.replicate n ("" : String) := List.getElem?_mem h
    rw [List.eq_of_mem_replicate hv]
    rfl

lemma buildRowFrom_nil (cols : List Int) (row0 : List String) :
    buildRowFrom cols row0 [] = row0 := rfl

lemma buildRowFrom_cons (cols : List Int) (row0 : List String) (w : Word) (vs : List Word) :
    buildRowFrom cols row0 (w :: vs) =
      buildRowFrom cols
        (if assignCol cols w.left < row0.length then
          row0.set (assignCol cols w.left) (cellAppend (row0.getD (assignCol cols w.left) "") w.text)
        else row0) vs := rfl

lemma buildRowFrom_length (cols : List Int) :
    ∀ (ws : List Word) (row0 : List String), (buildRowFrom cols row0 ws).length = row0.length := by
  intro ws
  induction ws with
  | nil => intro row0; rfl
  | cons w vs ih =>
    intro row0
    rw [buildRowFrom_cons]
    rw [ih]
    split
    · exact List.length_set row0 _ _
    · rfl

lemma buildRowFrom_getD (cs : List Int) (hcs : cs ≠ []) :
    ∀ (vs : List Word) (row0 : List String), row0.length = cs.length →
      ∀ j, j < cs.length →
        (buildRowFrom cs row0 vs).getD j "" =
          ((vs.filter fun w => assignCol cs w.left = j).map Word.text).foldl
            cellAppend (row0.getD j "") := by
  intro vs
  induction vs with
  | nil => intro row0 _ j _; rfl
  | cons w vs ih =>
    intro row0 hlen j hj
    have hidx : assignCol cs w.left < row0.length := by
      rw [hlen]
      exact assignCol_lt cs w.left hcs
    rw [buildRowFrom_cons, if_pos hidx]
    have hlen' : (row0.set (assignCol cs w.left)
        (cellAppend (row0.getD (assignCol cs w.left) "") w.text)).length = cs.length := by
      rw [List.length_set]; exact hlen
    by_cases hw : assignCol cs w.left = j
    · rw [List.filter_cons_of_pos (by simpa using hw), List.map_cons, List.foldl_cons]
      rw [ih _ hlen' j hj]
      rw [← hw, getD_set_self row0 _ _ hidx]
    · rw [List.filter_cons_of_neg (by simpa using hw)]
      rw [ih _ hlen' j hj]
      rw [getD_set_ne row0 _ j _ hw]

lemma append_space_ne (a b : String) : a ++ " " ++ b ≠ "" := by
  intro h
  have hd := congrArg String.data h
  rw [String.data_append, String.data_append] at hd
  have hsp : (" " : String).data = [' '] := rfl
  rw [hsp] at hd
  have hlen := congrArg List.length hd
  simp at hlen

lemma foldl_cellAppend_ne (ts : List String) :
    ∀ cur, cur ≠ "" → ts.foldl cellAppend cur = joinCells (cur :: ts) := by
  induction ts with
  | nil => intro cur _; rfl
  | cons t ts ih =>
    intro cur hcur
    rw [List.foldl_cons]
    have hca : cellAppend cur t = cur ++ " " ++ t := by rw [cellAppend, if_neg hcur]
    rw [hca, ih (cur ++ " " ++ t) (append_space_ne cur t)]
    cases ts with
    | nil => rfl
    | cons u us =>
      show (cur ++ " " ++ t) ++ " " ++ joinCells (u :: us) =
        cur ++ " " ++ (t ++ " " ++ joinCells (u :: us))
      simp [String.append_assoc]

lemma foldl_cellAppend (ts : List String) (h : ∀ t ∈ ts, t ≠ "") :
    ts.foldl cellAppend "" = joinCells ts := by
  cases ts with
  | nil => rfl
  | cons t ts =>
    rw [List.foldl_cons]
    have h1 : cellAppend "" t = t := by rw [cellAppend, if_pos rfl]
    rw [h1]
    exact foldl_cellAppend_ne ts t (h t (List.mem_cons_self t ts))

/-- C4: for every line of words and every non-empty boundary list,
the built row has one cell per boundary; each region goes to the last
(greatest-index) boundary whose position is at most `left + 40`
(whenever such a boundary exists); and a cell holds the texts of its
regions concatenated with single spaces, taken in ascending left-x
order (the words are sorted by `wordLE` and the cell content is the
space-joined text list of the sorted words assigned to it).  The
hypothesis that the words' texts are non-empty is guaranteed by the
pipeline, which strips and drops empty OCR texts before this step. -/
theorem C4_cell_assignment (cs : List Int) (ws : List Word)
    (hcs : cs ≠ []) (hts : ∀ w ∈ ws, w.text ≠ "") :
    (buildRow cs (sortWords ws)).length = cs.length ∧
    (∀ j, j < cs.length →
      (buildRow cs (sortWords ws)).getD j "" =
        joinCells (((sortWords ws).filter fun w => assignCol cs w.left = j).map Word.text)) ∧
    List.Pairwise wordLE (sortWords ws) ∧
    (∀ w ∈ ws,
      assignCol cs w.left < cs.length ∧
      (∀ i, i < cs.length → cs.getD i 0 ≤ w.left + 40 → i ≤ assignCol cs w.left) ∧
      ((∃ i, i < cs.length ∧ cs.getD i 0 ≤ w.left + 40) →
        cs.getD (assignCol cs w.left) 0 ≤ w.left + 40)) := by
  refine ⟨?_, ?_, ?_, ?_⟩
  · rw [buildRow, buildRowFrom_length, List.length_replicate]
  · intro j hj
    rw [buildRow, buildRowFrom_getD cs hcs (sortWords ws) _ (by simp) j hj,
      getD_replicate_empty]
    apply foldl_cellAppend
    intro t ht
    rcases List.mem_map.mp ht with ⟨w, hw, rfl⟩
    have hw' : w ∈ ws :=
      (List.perm_insertionSort wordLE ws).mem_iff.mp (List.mem_of_mem_filter hw)
    exact hts w hw'
  · exact List.sorted_insertionSort wordLE ws
  · intro w _
    refine ⟨assignCol_lt cs w.left hcs, ?_, ?_⟩
    · intro i hi hp
      exact assignCol_ge cs w.left i hi (by omega)
    · intro ⟨i, hi, hp⟩
      have := assignCol_sat cs w.left ⟨i, hi, by omega⟩
      omega

theorem C4_cell_assignment_witness :
    (buildRow [0, 100] (sortWords [⟨"B", 100⟩, ⟨"A", 0⟩])).getD 1 "" =
      joinCells (((sortWords [⟨"B", 100⟩, ⟨"A", 0⟩]).filter
        fun w => assignCol [0, 100] w.left = 1).map Word.text) :=
  (C4_cell_assignment [0, 100] [⟨"B", 100⟩, ⟨"A", 0⟩] (by decide) (by decide)).2.1 1 (by decide)

lemma parseAll_eq_some (ts : List (List Char))
    (h : ∀ t ∈ ts, (parseToken t).isSome) :
    parseAll ts = some (ts.filterMap parseToken) := by
  induction ts with
  | nil => rfl
  | cons t ts ih =>
    have ht := h t (List.mem_cons_self t ts)
    rcases Option.isSome_iff_exists.mp ht with ⟨l, hl⟩
    rw [parseAll, hl, ih fun u hu => h u (List.mem_cons_of_mem t hu)]
    rw [List.filterMap_cons, hl]

/-- C2 (amended): when every comma-separated token of the selector is
either a single-page token (possibly invalid, then silently ignored)
or a well-formed `a-b` range with integer endpoints, parsing succeeds
and yields, in token order, the concatenation of each token's 0-based
page contributions.  A malformed range token instead makes the parse
raise — see the counterexample — so the conversion fails rather than
ignoring it, and the result is a plain list that may contain
duplicates and need not be sorted. -/
theorem C2_page_selector (pages : String)
    (h : ∀ t ∈ splitOnChar ',' pages.data, (parseToken t).isSome) :
    parsePages pages =
      some ((splitOnChar ',' pages.data).filterMap parseToken).flatten := by
  rw [parsePages, parseAll_eq_some _ h]
  rfl

/-- C2 as stated is false: the malformed range token `"a-b"` is not
silently ignored — `int("a")` raises an uncaught `ValueError`, which
the embedding models as `none` (and `convert`'s outermost handler
turns into a failure result).  Moreover the parsed list is neither
deduplicated nor sorted: `"3,1,1"` yields `[2, 0, 0]`. -/
theorem C2_counterexample :
    parsePages "a-b" = none ∧ parsePages "3,1,1" = some [2, 0, 0] := by
  decide

theorem C2_page_selector_witness : parsePages "2,1-3,x" = some [1, 0, 1, 2] :=
  (C2_page_selector "2,1-3,x" (by decide)).trans (by decide)

lemma worker_some (pdf : PdfEnv) (p : Int) (r : PageTable)
    (h : process_single_page_ocr pdf p = some r) :
    0 ≤ p ∧ p < (pdf.numPages : Int) ∧ r.page = p.toNat + 1 ∧ r.source = "ocr" := by
  unfold process_single_page_ocr at h
  by_cases h1 : pdf.initOk = false
  · rw [if_pos h1] at h
    exact absurd h (by simp)
  · rw [if_neg h1] at h
    by_cases h2 : p < 0 ∨ (pdf.numPages : Int) ≤ p
    · rw [if_pos h2] at h
      exact absurd h (by simp)
    · rw [if_neg h2] at h
      push_neg at h2
      cases ho : pdf.ocrOf p.toNat with
      | none => rw [ho] at h; exact absurd h (by simp)
      | some items =>
        simp only [ho] at h
        cases hr : reconstruct items with
        | none => simp only [hr] at h; exact absurd h (by simp)
        | some td =>
          simp only [hr] at h
          have he := Option.some.inj h
          refine ⟨h2.1, h2.2, ?_, ?_⟩
          · rw [← he]
          · rw [← he]

/-- C8: the page worker never fails outward.  An out-of-range page
index yields `none` rather than an error, and a failure at any
step — engine construction or document opening (`initOk = false`),
rasterising/OCR (`ocrOf _ = none`), or a reconstruction that produces
no grid — also yields `none`.  (The embedding is a total function
into `Option`, mirroring the worker's outermost `try/except` that
converts every exception to `None`.) -/
theorem C8_worker_never_raises (pdf : PdfEnv) (p : Int) :
    ((p < 0 ∨ (pdf.numPages : Int) ≤ p) → process_single_page_ocr pdf p = none) ∧
    (pdf.initOk = false → process_single_page_ocr pdf p = none) ∧
    (pdf.ocrOf p.toNat = none → process_single_page_ocr pdf p = none) ∧
    (reconstruct ((pdf.ocrOf p.toNat).getD []) = none →
      process_single_page_ocr pdf p = none) := by
  refine ⟨?_, ?_, ?_, ?_⟩
  · intro h
    unfold process_single_page_ocr
    by_cases h1 : pdf.initOk = false
    · rw [if_pos h1]
    · rw [if_neg h1, if_pos h]
  · intro h
    unfold process_single_page_ocr
    rw [if_pos h]
  · intro h
    unfold process_single_page_ocr
    by_cases h1 : pdf.initOk = false
    · rw [if_pos h1]
    · rw [if_neg h1]
      by_cases h2 : p < 0 ∨ (pdf.numPages : Int) ≤ p
      · rw [if_pos h2]
      · rw [if_neg h2, h]
  · intro h
    unfold process_single_page_ocr
    by_cases h1 : pdf.initOk = false
    · rw [if_pos h1]
    · rw [if_neg h1]
      by_cases h2 : p < 0 ∨ (pdf.numPages : Int) ≤ p
      · rw [if_pos h2]
      · rw [if_neg h2]
        cases ho : pdf.ocrOf p.toNat with
        | none => rfl
        | some items =>
          rw [ho] at h
          simp only [Option.getD_some] at h
          simp only [h]

theorem C8_worker_never_raises_witness : process_single_page_ocr demoPdf 99 = none :=
  (C8_worker_never_raises demoPdf 99).1 (by decide)

/-- C9: when the OCR capability is unavailable,
`extract_tables_with_ocr` is the empty list for every document
environment and every page-index list — no page is attempted. -/
theorem C9_ocr_unavailable (pdf : PdfEnv) (pages : List Int) :
    extract_tables_with_ocr pdf false pages = [] := rfl

lemma map_filterMap_id (f : Int → Option PageTable) (l : List Int) :
    (l.map f).filterMap id = l.filterMap f := by
  rw [List.filterMap_map]
  rfl

/-- C10: with OCR available, the scheduler's result is exactly the
in-order filter-map of the page workers over the input page indices —
successful pages appear in the same relative order as their indices,
failed or table-less pages are omitted — and every returned result
was produced by a worker on an in-range page `p` of the input, with
`page` field `p + 1` (1-based) and source tag `"ocr"`. -/
theorem C10_result_order (pdf : PdfEnv) (pages : List Int) :
    extract_tables_with_ocr pdf true pages =
      pages.filterMap (process_single_page_ocr pdf) ∧
    ∀ r ∈ pages.filterMap (process_single_page_ocr pdf),
      ∃ p ∈ pages, process_single_page_ocr pdf p = some r ∧ 0 ≤ p ∧
        p < (pdf.numPages : Int) ∧ r.page = p.toNat + 1 ∧ r.source = "ocr" := by
  constructor
  · rw [extract_tables_with_ocr, if_neg (by simp)]
    exact map_filterMap_id _ _
  · intro r hr
    rcases List.mem_filterMap.mp hr with ⟨p, hp, hsome⟩
    have hw := worker_some pdf p r hsome
    exact ⟨p, hp, hsome, hw.1, hw.2.1, hw.2.2.1, hw.2.2.2⟩

theorem C10_result_order_witness :
    ∃ p ∈ ([0, 5] : List Int), process_single_page_ocr demoPdf p = some demoTable ∧
      0 ≤ p ∧ p < (demoPdf.numPages : Int) ∧ demoTable.page = p.toNat + 1 ∧
      demoTable.source = "ocr" :=
  (C10_result_order demoPdf [0, 5]).2 demoTable (by decide)

lemma structStep_source (npages : Nat) (extractor : Nat → List (List (List String)))
    (acc : List PageTable) (p : Int) (t : PageTable)
    (ht : t ∈ structStep npages extractor acc p) :
    t.source = "pdfplumber" ∨ t ∈ acc := by
  unfold structStep at ht
  by_cases h : p < 0 ∨ (npages : Int) ≤ p
  · rw [if_pos h] at ht
    exact Or.inr ht
  · rw [if_neg h] at ht
    rcases List.mem_append.mp ht with h1 | h1
    · exact Or.inr h1
    · rcases List.mem_filterMap.mp h1 with ⟨tab, _, hsome⟩
      by_cases he : tab.isEmpty
      · rw [if_pos he] at hsome
        exact absurd hsome (by simp)
      · rw [if_neg he] at hsome
        have := Option.some.inj hsome
        exact Or.inl (by rw [← this])

lemma structuralTables_source (npages : Nat) (extractor : Nat → List (List (List String))) :
    ∀ (pages : List Int) (acc : List PageTable),
      (∀ t ∈ acc, t.source = "pdfplumber") →
      ∀ t ∈ pages.foldl (structStep npages extractor) acc, t.source = "pdfplumber" := by
  intro pages
  induction pages with
  | nil => intro acc hacc t ht; exact hacc t ht
  | cons p ps ih =>
    intro acc hacc t ht
    rw [List.foldl_cons] at ht
    refine ih (structStep npages extractor acc p) ?_ t ht
    intro u hu
    rcases structStep_source npages extractor acc p u hu with h | h
    · exact h
    · exact hacc u h

lemma ocr_tables_source (pdf : PdfEnv) (avail : Bool) (pages : List Int) :
    ∀ t ∈ extract_tables_with_ocr pdf avail pages, t.source = "ocr" := by
  intro t ht
  unfold extract_tables_with_ocr at ht
  by_cases h : avail = false
  · rw [if_pos h] at ht
    exact absurd ht (by simp)
  · rw [if_neg h] at ht
    rcases List.mem_filterMap.mp ht with ⟨o, ho, hid⟩
    rcases List.mem_map.mp ho with ⟨p, _, rfl⟩
    exact (worker_some pdf p t hid).2.2.2

/-- C7: the OCR path replaces the structural result only when the
structural pass over the requested pages produced zero tables, OCR
was requested and the capability is present; in every other case the
result is exactly the structural pass's tables.  Consequently one
result list never mixes sources: either every table is tagged
`"pdfplumber"` or every table is tagged `"ocr"`. -/
theorem C7_fallback_policy (npages : Nat) (extractor : Nat → List (List (List String)))
    (pdf : PdfEnv) (ocr_avail : Bool) (pages : List Int) (use_ocr : Bool) :
    ((structuralTables npages extractor pages ≠ [] ∨ use_ocr = false) →
      convertTables npages extractor pdf ocr_avail pages use_ocr =
        structuralTables npages extractor pages) ∧
    ((structuralTables npages extractor pages = [] ∧ use_ocr = true ∧ ocr_avail = true) →
      convertTables npages extractor pdf ocr_avail pages use_ocr =
        extract_tables_with_ocr pdf ocr_avail pages) ∧
    ((∀ t ∈ convertTables npages extractor pdf ocr_avail pages use_ocr,
        t.source = "pdfplumber") ∨
     (∀ t ∈ convertTables npages extractor pdf ocr_avail pages use_ocr,
        t.source = "ocr")) := by
  have hs : ∀ t ∈ structuralTables npages extractor pages, t.source = "pdfplumber" := by
    intro t ht
    unfold structuralTables at ht
    exact structuralTables_source npages extractor pages []
      (fun u hu => absurd hu (List.not_mem_nil u)) t ht
  refine ⟨?_, ?_, ?_⟩
  · intro h
    unfold convertTables
    rcases h with h | h
    · rw [if_neg]
      intro hc
      rw [Bool.and_eq_true, Bool.and_eq_true, List.isEmpty_iff] at hc
      exact h hc.1.1
    · rw [if_neg]
      intro hc
      rw [h] at hc
      simp at hc
  · intro h
    unfold convertTables
    rw [if_pos]
    rw [Bool.and_eq_true, Bool.and_eq_true, List.isEmpty_iff]
    exact ⟨⟨h.1, h.2.1⟩, h.2.2⟩
  · simp only [convertTables]
    split
    · exact Or.inr (ocr_tables_source pdf ocr_avail pages)
    · exact Or.inl hs

theorem C7_fallback_policy_witness :
    convertTables 1 demoExtractor demoPdf true [0] false =
      structuralTables 1 demoExtractor [0] :=
  (C7_fallback_policy 1 demoExtractor demoPdf true [0] false).1 (Or.inr rfl)
